import Mathlib

/-!
Shallow embedding of the Neural GPU model-construction code (neural_gpu.py).

Tensors are modelled cell-wise over exact rationals.  External TensorFlow
primitives that the repository merely calls (tf.sigmoid, tf.tanh, the
convolution kernel application, the dropout noise source) are passed in as
explicit function parameters; everything the repository itself computes is
translated definitionally.  Python exceptions (assert, raise IndexError)
become Except values.
-/

namespace NeuralGPU

/-- Forward semantics of tf.stop_gradient: the identity on values (it only
affects the gradient computation, which is not part of the value-level
embedding). -/
def stop_gradient (x : ℚ) : ℚ := x

/-- tf.clip_by_value: clamp a value into the interval lo..hi. -/
def clip_by_value (val lo hi : ℚ) : ℚ := min hi (max val lo)

/-- Embeds tf_cut_function(val, vlo, vhi, glo, ghi).  The valid bounds and
gradient bounds are each optional (None in the source); the Python
assert ghi >= vhi > vlo >= glo becomes an error branch. -/
def tf_cut_function (val : ℚ) (vb gb : Option (ℚ × ℚ)) : Except String ℚ :=
  match vb with
  | none => Except.ok val
  | some (vlo, vhi) =>
    let a := clip_by_value val vlo vhi
    match gb with
    | none => Except.ok a
    | some (glo, ghi) =>
      if ghi ≥ vhi ∧ vhi > vlo ∧ vlo ≥ glo then
        let zz := clip_by_value val glo ghi
        Except.ok (zz - stop_gradient (zz - a))
      else Except.error "AssertionError"

/-- Embeds sigmoid_cutoff(x, cutoff).  sig is the external tf.sigmoid;
smooth_grad is the FLAGS.smooth_grad float flag (Python truthiness: the
flag is enabled iff it is nonzero). -/
def sigmoid_cutoff (sig : ℚ → ℚ) (smooth_grad : ℚ) (x cutoff : ℚ) :
    Except String ℚ :=
  let y := sig x
  if cutoff < 101/100 then Except.ok y
  else
    let d := (cutoff - 1) / 2
    let z := cutoff * y - d
    let gb : Option (ℚ × ℚ) :=
      if smooth_grad ≠ 0 then
        let dd := (smooth_grad - 1) / 2
        some (-dd, 1 + dd)
      else none
    tf_cut_function z (some (0, 1)) gb

/-- Embeds tanh_cutoff(x, cutoff).  th is the external tf.tanh;
smooth_grad_tanh is the FLAGS.smooth_grad_tanh flag (enabled iff nonzero). -/
def tanh_cutoff (th : ℚ → ℚ) (smooth_grad_tanh : ℚ) (x cutoff : ℚ) :
    Except String ℚ :=
  let y := th x
  if cutoff < 101/100 then Except.ok y
  else
    let z := cutoff * y
    let tcut := smooth_grad_tanh
    let gb : Option (ℚ × ℚ) := if tcut ≠ 0 then some (-tcut, tcut) else none
    tf_cut_function z (some (-1, 1)) gb

/-- The FLAGS values consumed by the embedded code (tf.app.flags). -/
structure Flags where
  smooth_grad : ℚ
  smooth_grad_tanh : ℚ
  cutoff_tanh : ℚ

/-- Embeds conv_linear(arg, kw, kh, nin, nout, do_bias, bias_start, prefix).
Variables live in a name environment env keyed by their variable-scope path
(tf.variable_scope nesting); the kernel variable is CvK and the bias CvB
under the given scope.  conv2d is the external convolution, a function of
the kernel variable value and the input cell. -/
def conv_linear (conv2d : ℚ → ℚ → ℚ) (env : List String → ℚ) (arg : ℚ)
    (kw kh nin nout : ℕ) (do_bias : Bool) (bias_start : ℚ)
    (scope : List String) : ℚ :=
  let k := env (scope ++ ["CvK"])
  let res := conv2d k arg
  if do_bias then res + env (scope ++ ["CvB"]) + bias_start else res

/-- Embeds conv_gru(mem, kw, kh, nmaps, cutoff, prefix): reset and update
gates through sigmoid_cutoff (bias starting at 1.0), candidate through
tanh_cutoff (bias starting at 0.0), each from its own convolution under a
distinct variable-scope suffix (r, c, g). -/
def conv_gru (conv2d : ℚ → ℚ → ℚ) (sig th : ℚ → ℚ) (flags : Flags)
    (env : List String → ℚ) (mem : ℚ) (kw kh nmaps : ℕ) (cutoff : ℚ)
    (scope : List String) : Except String ℚ :=
  let conv_lin := fun (arg : ℚ) (sfx : String) (bias_start : ℚ) =>
    conv_linear conv2d env arg kw kh nmaps nmaps true bias_start (scope ++ [sfx])
  do
    let reset ← sigmoid_cutoff sig flags.smooth_grad (conv_lin mem "r" 1) cutoff
    let candidate ← tanh_cutoff th flags.smooth_grad_tanh
      (conv_lin (reset * mem) "c" 0) flags.cutoff_tanh
    let gate ← sigmoid_cutoff sig flags.smooth_grad (conv_lin mem "g" 1) cutoff
    Except.ok (gate * mem + (1 - gate) * candidate)

/-- The spec's description of the convolutional GRU, assembled directly from
the words of the specification: three independently-biased convolutions
sharing no weights, r = bounded_sigmoid(conv(mem)) with bias starting at 1,
c = bounded_tanh(conv(r*mem)) with bias starting at 0,
g = bounded_sigmoid(conv(mem)) with bias starting at 1, and the
output g*mem + (1-g)*c. -/
def conv_gru_spec (conv2d : ℚ → ℚ → ℚ) (sig th : ℚ → ℚ) (flags : Flags)
    (env : List String → ℚ) (mem : ℚ) (kw kh nmaps : ℕ) (cutoff : ℚ)
    (scope : List String) : Except String ℚ :=
  let rconv := conv2d (env (scope ++ ["r", "CvK"])) mem + env (scope ++ ["r", "CvB"]) + 1
  let gconv := conv2d (env (scope ++ ["g", "CvK"])) mem + env (scope ++ ["g", "CvB"]) + 1
  do
    let r ← sigmoid_cutoff sig flags.smooth_grad rconv cutoff
    let cconv := conv2d (env (scope ++ ["c", "CvK"])) (r * mem) + env (scope ++ ["c", "CvB"]) + 0
    let c ← tanh_cutoff th flags.smooth_grad_tanh cconv flags.cutoff_tanh
    let g ← sigmoid_cutoff sig flags.smooth_grad gconv cutoff
    Except.ok (g * mem + (1 - g) * c)

/-- Embeds quantize(t, quant_scale, max_value): clamp to the symmetric
interval, map affinely, floor, map back. -/
def quantize (t quant_scale max_value : ℚ) : ℚ :=
  let t' := min max_value (max t (-max_value))
  let big := quant_scale * (t' + max_value) + 1/2
  ((⌊big⌋ : ℚ) / quant_scale) - max_value

/-- tf.add_n on a list of same-shape tensors (tensors modelled as functions
from a finite index type of cells to rationals).  tf.add_n rejects the empty
list; the [] case here is never reached from the embedded call sites, which
all pass nonempty lists. -/
def add_n {m : ℕ} : List (Fin m → ℚ) → (Fin m → ℚ)
  | [] => 0
  | v :: vs => vs.foldl (· + ·) v

/-- Embeds relaxed_average(var_name_suffix, rx_step) applied to the list of
RX-slot duplicates that exist for one variable-name group: the elementwise
average and the total (reduce_sum) of summed squared deviations from it. -/
def relaxed_average {m : ℕ} (relaxed_vars : List (Fin m → ℚ)) :
    (Fin m → ℚ) × ℚ :=
  let dsum := add_n relaxed_vars
  let avg := fun j => dsum j / (relaxed_vars.length : ℚ)
  let diff := relaxed_vars.map (fun v => v - avg)
  let davg := add_n (diff.map (fun d => d * d))
  (avg, ∑ j, davg j)

/-- Embeds the penalty part of relaxed_distance(rx_step): the sum over all
duplicate groups of each group's relaxed_average penalty.  A group is the
list of duplicates of one trainable variable across RX scopes, bundled with
its cell count; the name-scanning that discovers the groups and the
snap-to-average assignment ops are not modelled. -/
def relaxed_distance (groups : List ((m : ℕ) × List (Fin m → ℚ))) : ℚ :=
  (groups.map (fun g => (relaxed_average g.2).2)).sum

/-- Embeds NeuralGPUAtSize.construct_mask for one batch example (the batch
dimension is elementwise; the final transpose only reorders the batch and
step axes and is dropped).  input and target are the token-id rows of the
example, mask is their nonzero indicator, and scales multiplies the mask by
one minus the mask shifted left by one step (via the zero-padded mask). -/
def construct_mask (input target : List ℤ) : List ℚ × List ℚ :=
  let bmask : List Bool :=
    List.zipWith (fun i t => decide (0 < i) || decide (0 < t)) input target
  let mask : List ℚ := bmask.map (fun b => if b then 1 else 0)
  let padded_mask : List ℚ := mask ++ [0]
  let scales : List ℚ :=
    List.zipWith (fun a b => a * (1 - b)) (padded_mask.take mask.length)
      (padded_mask.drop 1)
  (mask, scales)

/-- The ascending list of instance lengths built by NeuralGPU.construct_graph:
sorted(list(set(data_utils.bins + [data_utils.forward_max]))). -/
def buildLengths (bins : List ℕ) (forward_max : ℕ) : List ℕ :=
  ((bins ++ [forward_max]).dedup).insertionSort (· ≤ ·)

/-- Embeds NeuralGPU.get_instance_for_length: scan the instances in build
order and return the first whose length is at least the request; raise
IndexError when none is. -/
def get_instance_for_length (instances : List ℕ) (length : ℕ) :
    Except String ℕ :=
  match instances.find? (fun l => decide (length ≤ l)) with
  | some l => Except.ok l
  | none => Except.error "IndexError"

/-- The feed dictionary assembled by NeuralGPU.step before executing the
session: the do_training placeholder value, the task ids, the per-step
input and target rows, and the length of the resolved instance. -/
structure StepFeed where
  do_training : ℚ
  task : List ℤ
  inputs : List (List ℤ)
  targets : List (List ℤ)
  instance_length : ℕ
deriving DecidableEq

/-- Embeds NeuralGPU.step(sess, batch, do_backward) up to the session call:
the length assertion, the do_training binding (1.0 when training, 0.0
otherwise), the per-step placeholder bindings, and instance resolution.
The Python assert raises before any placeholder is bound, which the error
branch models by producing no feed at all. -/
def step (instances : List ℕ) (inp target : List (List ℤ)) (taskid : List ℤ)
    (do_backward : Bool) : Except String StepFeed :=
  if inp.length = target.length then
    let length := target.length
    let do_training_val : ℚ := if do_backward then 1 else 0
    match get_instance_for_length instances length with
    | Except.ok l =>
      Except.ok ⟨do_training_val, taskid, inp.take length, target.take length, l⟩
    | Except.error e => Except.error e
  else Except.error "AssertionError"

/-- tf.nn.dropout(x, keep_prob) at one cell, with its uniform random draw
noise from the half-open unit interval made explicit: the kept/dropped
indicator is floor(keep_prob + noise) and the kept value is rescaled by
1/keep_prob. -/
def dropout (keep_prob noise x : ℚ) : ℚ :=
  x / keep_prob * (⌊keep_prob + noise⌋ : ℚ)

/-- Embeds the recurrent loop of NeuralGPUAtSize.construct_all_layers at one
cell: keep_prob = 1 - do_training * (dropout_flag * 8 / length), and each
step it applies dropout, multiplies by the mask, and runs the (per-RX-slot)
gated convolution block, collecting the per-step layers.  The block is the
deterministic function G of the step index and the cell value (its RX-slot
parameter reuse and the attention variant are internal to G); noise gives
each step's dropout draw. -/
def construct_all_layers (G : ℕ → ℚ → ℚ) (do_training dropout_flag : ℚ)
    (length : ℕ) (mask : ℚ) (noise : ℕ → ℚ) (first : ℚ) : List ℚ :=
  let keep_prob := 1 - do_training * (dropout_flag * 8 / (length : ℚ))
  ((List.range length).foldl
    (fun (st : ℚ × List ℚ) it =>
      let cur := G it (dropout keep_prob (noise it) st.1 * mask)
      (cur, st.2 ++ [cur]))
    (first, [])).2

/-! ## Helper lemmas -/

instance {α β : Type} [DecidableEq α] [DecidableEq β] :
    DecidableEq (Except α β) := fun x y =>
  match x, y with
  | .ok a, .ok b =>
    if h : a = b then .isTrue (by rw [h]) else .isFalse (by simp [h])
  | .ok _, .error _ => .isFalse (by simp)
  | .error _, .ok _ => .isFalse (by simp)
  | .error e, .error f =>
    if h : e = f then .isTrue (by rw [h]) else .isFalse (by simp [h])

lemma clip_by_value_mem (val lo hi : ℚ) (h : lo ≤ hi) :
    lo ≤ clip_by_value val lo hi ∧ clip_by_value val lo hi ≤ hi := by
  unfold clip_by_value
  exact ⟨le_min h (le_max_right _ _), min_le_left _ _⟩

lemma tf_cut_function_ok_some (val vlo vhi : ℚ) (gb : Option (ℚ × ℚ)) (r : ℚ)
    (h : tf_cut_function val (some (vlo, vhi)) gb = Except.ok r) :
    r = clip_by_value val vlo vhi ∧
    (∀ glo ghi, gb = some (glo, ghi) → ghi ≥ vhi ∧ vhi > vlo ∧ vlo ≥ glo) := by
  cases gb with
  | none =>
    simp only [tf_cut_function, Except.ok.injEq] at h
    exact ⟨h.symm, by simp⟩
  | some p =>
    obtain ⟨glo, ghi⟩ := p
    simp only [tf_cut_function] at h
    split_ifs at h with hcond
    · simp only [stop_gradient, Except.ok.injEq] at h
      refine ⟨?_, ?_⟩
      · rw [← h]; ring
      · intro glo' ghi' he
        cases he
        exact hcond

/-! ## Claim theorems -/

/-- Claim C2, counterexample: at the boundary cutoff = 1.01 exactly, the code
takes the cutoff path (its test is the strict cutoff < 1.01), and for a
sigmoid value of 1/1000 — a value the real sigmoid attains, being strictly
between 0 and 1 — the scaled-and-shifted value 1.01*(1/1000) - 0.005 is
negative and is clipped to 0, so bounded_sigmoid differs from plain sigmoid. -/
theorem sigmoid_cutoff_boundary_counterexample :
    (0 < (1/1000 : ℚ) ∧ (1/1000 : ℚ) < 1) ∧
    sigmoid_cutoff (fun _ => 1/1000) 0 0 (101/100) ≠ Except.ok (1/1000) := by
  constructor
  · constructor <;> norm_num
  · norm_num [sigmoid_cutoff, tf_cut_function, clip_by_value, stop_gradient,
      min_def, max_def]

/-- Claim C2 (amended): for every input x and every configured cutoff
strictly below 1.01, bounded_sigmoid(x, cutoff) equals plain sigmoid(x)
exactly and bounded_tanh(x, cutoff) equals plain tanh(x) exactly; at
cutoff = 1.01 exactly the cutoff path is taken instead and equality can
fail. -/
theorem cutoff_below_threshold_identity (sig th : ℚ → ℚ) (sg sgt x cutoff : ℚ)
    (hc : cutoff < 101/100) :
    sigmoid_cutoff sig sg x cutoff = Except.ok (sig x) ∧
    tanh_cutoff th sgt x cutoff = Except.ok (th x) := by
  constructor <;> simp [sigmoid_cutoff, tanh_cutoff, hc]

theorem cutoff_below_threshold_identity_witness :
    sigmoid_cutoff (fun v => v) 0 5 1 = Except.ok 5 ∧
    tanh_cutoff (fun v => v) 0 5 1 = Except.ok 5 :=
  cutoff_below_threshold_identity (fun v => v) (fun v => v) 0 0 5 1 (by norm_num)

/-- Claim C7: with both valid bounds and gradient bounds supplied,
cutoff_function fails its assertion exactly when the ordering
grad_high ≥ valid_high > valid_low ≥ grad_low fails (the assert sits in the
graph-construction code path, before any value is produced); and whenever
the valid bounds are absent it returns its input unchanged. -/
theorem tf_cut_function_assert_spec (val vlo vhi glo ghi : ℚ) :
    (tf_cut_function val (some (vlo, vhi)) (some (glo, ghi)) =
        Except.error "AssertionError" ↔
      ¬(ghi ≥ vhi ∧ vhi > vlo ∧ vlo ≥ glo)) ∧
    ∀ gb : Option (ℚ × ℚ), tf_cut_function val none gb = Except.ok val := by
  constructor
  · simp only [tf_cut_function]
    split_ifs with h <;> simp [h]
  · intro gb; rfl

/-- Claim C8: for cutoff > 1.01 the forward value of bounded_sigmoid lies in
[0,1], and when gradient smoothing is enabled (smooth_grad nonzero) it also
lies in the configured gradient-bound range [-(sg-1)/2, 1+(sg-1)/2];
analogously the forward value of bounded_tanh lies in [-1,1] and, with tanh
smoothing enabled, in [-smooth_grad_tanh, smooth_grad_tanh]. -/
theorem cutoff_forward_range (sig th : ℚ → ℚ) (sg sgt x cutoff r c : ℚ)
    (hc : 101/100 < cutoff)
    (hr : sigmoid_cutoff sig sg x cutoff = Except.ok r)
    (ht : tanh_cutoff th sgt x cutoff = Except.ok c) :
    ((0 ≤ r ∧ r ≤ 1) ∧ (sg ≠ 0 → -((sg - 1)/2) ≤ r ∧ r ≤ 1 + (sg - 1)/2)) ∧
    ((-1 ≤ c ∧ c ≤ 1) ∧ (sgt ≠ 0 → -sgt ≤ c ∧ c ≤ sgt)) := by
  have hnc : ¬(cutoff < 101/100) := not_lt.2 (le_of_lt hc)
  unfold sigmoid_cutoff at hr
  unfold tanh_cutoff at ht
  rw [if_neg hnc] at hr ht
  obtain ⟨hr1, hr2⟩ := tf_cut_function_ok_some _ _ _ _ _ hr
  obtain ⟨ht1, ht2⟩ := tf_cut_function_ok_some _ _ _ _ _ ht
  have hrmem := clip_by_value_mem (cutoff * sig x - (cutoff - 1)/2) 0 1 (by norm_num)
  have htmem := clip_by_value_mem (cutoff * th x) (-1) 1 (by norm_num)
  rw [← hr1] at hrmem
  rw [← ht1] at htmem
  refine ⟨⟨hrmem, ?_⟩, ⟨htmem, ?_⟩⟩
  · intro hsg
    have := hr2 (-((sg - 1)/2)) (1 + (sg - 1)/2) (by rw [if_pos hsg])
    exact ⟨le_trans this.2.2 hrmem.1, le_trans hrmem.2 this.1⟩
  · intro hsgt
    have := ht2 (-sgt) sgt (by rw [if_pos hsgt])
    exact ⟨le_trans this.2.2 htmem.1, le_trans htmem.2 this.1⟩

theorem cutoff_forward_range_witness :
    (0 ≤ (1/2 : ℚ) ∧ (1/2 : ℚ) ≤ 1) ∧ (-1 ≤ (0 : ℚ) ∧ (0 : ℚ) ≤ 1) := by
  have h := cutoff_forward_range (fun _ => 1/2) (fun _ => 0) 0 0 0 2 (1/2) 0
    (by norm_num)
    (by norm_num [sigmoid_cutoff, tf_cut_function, clip_by_value, stop_gradient,
      min_def, max_def])
    (by norm_num [tanh_cutoff, tf_cut_function, clip_by_value, stop_gradient,
      min_def, max_def])
  exact ⟨h.1.1, h.2.1⟩

/-- Claim C9: step asserts that the batch's input grid and target grid have
the same sequence length; when the lengths differ it fails the assertion
immediately — the first statement after unpacking the batch — so no
placeholder is bound and no feed is produced (the error carries no partial
StepFeed). -/
theorem step_length_assert (instances : List ℕ) (inp target : List (List ℤ))
    (taskid : List ℤ) (do_backward : Bool)
    (h : inp.length ≠ target.length) :
    step instances inp target taskid do_backward =
      Except.error "AssertionError" := by
  unfold step
  rw [if_neg h]

theorem step_length_assert_witness :
    step [] [[1]] [] [] false = Except.error "AssertionError" :=
  step_length_assert [] [[1]] [] [] false (by decide)

/-- Claim C6: conv_gru computes g*mem + (1-g)*c with the reset gate r the
bounded sigmoid of a biased convolution of mem (bias starting at 1.0), the
candidate c the bounded tanh of a biased convolution of r*mem (bias starting
at 0.0), and the update gate g the bounded sigmoid of a separate biased
convolution of mem (bias starting at 1.0) — the refinement against the
spec-side assembly conv_gru_spec — and the three convolutions share no
weights: their kernel and bias variable paths are pairwise distinct. -/
theorem conv_gru_matches_spec (conv2d : ℚ → ℚ → ℚ) (sig th : ℚ → ℚ)
    (flags : Flags) (env : List String → ℚ) (mem : ℚ) (kw kh nmaps : ℕ)
    (cutoff : ℚ) (scope : List String) :
    conv_gru conv2d sig th flags env mem kw kh nmaps cutoff scope =
      conv_gru_spec conv2d sig th flags env mem kw kh nmaps cutoff scope ∧
    (scope ++ ["r", "CvK"] ≠ scope ++ ["c", "CvK"] ∧
     scope ++ ["r", "CvK"] ≠ scope ++ ["g", "CvK"] ∧
     scope ++ ["c", "CvK"] ≠ scope ++ ["g", "CvK"] ∧
     scope ++ ["r", "CvB"] ≠ scope ++ ["c", "CvB"] ∧
     scope ++ ["r", "CvB"] ≠ scope ++ ["g", "CvB"] ∧
     scope ++ ["c", "CvB"] ≠ scope ++ ["g", "CvB"]) := by
  constructor
  · simp [conv_gru, conv_gru_spec, conv_linear, List.append_assoc]
  · refine ⟨?_, ?_, ?_, ?_, ?_, ?_⟩ <;> simp

lemma find_first_ge_min : ∀ (ls : List ℕ) (n : ℕ),
    List.Sorted (· < ·) ls →
    ∀ l, ls.find? (fun m => decide (n ≤ m)) = some l →
      l ∈ ls ∧ n ≤ l ∧ ∀ m ∈ ls, n ≤ m → l ≤ m := by
  intro ls n
  induction ls with
  | nil => intro _ l hf; simp at hf
  | cons a t ih =>
    intro hs l hf
    rw [List.sorted_cons] at hs
    by_cases hpa : n ≤ a
    · rw [List.find?_cons_of_pos _ (by simpa using hpa)] at hf
      obtain rfl : a = l := by simpa using hf
      refine ⟨List.mem_cons_self _ _, hpa, ?_⟩
      intro m hm _
      rcases List.mem_cons.1 hm with rfl | hm
      · exact le_refl _
      · exact le_of_lt (hs.1 m hm)
    · rw [List.find?_cons_of_neg _ (by simpa using hpa)] at hf
      obtain ⟨h1, h2, h3⟩ := ih hs.2 l hf
      refine ⟨List.mem_cons_of_mem _ h1, h2, ?_⟩
      intro m hm hnm
      rcases List.mem_cons.1 hm with rfl | hm
      · exact absurd hnm hpa
      · exact h3 m hm hnm

/-- Claim C1: over the instance lengths built by construct_graph (the
deduplicated bins plus forward_max, in strictly ascending order),
get_instance_for_length returns the smallest instance length that is at
least the request; it returns some instance whenever one covers the
request, and raises IndexError exactly when the request exceeds every
instance length. -/
theorem get_instance_for_length_spec (bins : List ℕ) (forward_max n : ℕ) :
    List.Sorted (· < ·) (buildLengths bins forward_max) ∧
    (∀ l, get_instance_for_length (buildLengths bins forward_max) n =
        Except.ok l →
      l ∈ buildLengths bins forward_max ∧ n ≤ l ∧
        ∀ m ∈ buildLengths bins forward_max, n ≤ m → l ≤ m) ∧
    ((∃ m ∈ buildLengths bins forward_max, n ≤ m) →
      ∃ l, get_instance_for_length (buildLengths bins forward_max) n =
        Except.ok l) ∧
    ((∀ m ∈ buildLengths bins forward_max, m < n) →
      get_instance_for_length (buildLengths bins forward_max) n =
        Except.error "IndexError") := by
  have hsorted : List.Sorted (· < ·) (buildLengths bins forward_max) := by
    have h1 : List.Sorted (· ≤ ·) (buildLengths bins forward_max) :=
      List.sorted_insertionSort _ _
    have h2 : (buildLengths bins forward_max).Nodup :=
      ((List.perm_insertionSort _ _).nodup_iff).2
        (List.nodup_dedup (bins ++ [forward_max]))
    exact (h1.and h2).imp fun h => lt_of_le_of_ne h.1 h.2
  refine ⟨hsorted, ?_, ?_, ?_⟩
  · intro l h
    unfold get_instance_for_length at h
    generalize hf :
      (buildLengths bins forward_max).find? (fun m => decide (n ≤ m)) = o at h
    cases o with
    | none => simp at h
    | some l' =>
      simp only [Except.ok.injEq] at h
      subst h
      exact find_first_ge_min _ n hsorted l' hf
  · rintro ⟨m, hm, hnm⟩
    unfold get_instance_for_length
    cases hf : (buildLengths bins forward_max).find? (fun m => decide (n ≤ m)) with
    | none =>
      have := List.find?_eq_none.1 hf m hm
      simp at this
      exact absurd hnm (by omega)
    | some l => exact ⟨l, rfl⟩
  · intro hall
    unfold get_instance_for_length
    rw [List.find?_eq_none.2 (fun m hm => by simpa using Nat.not_le.2 (hall m hm))]

theorem get_instance_for_length_spec_witness :
    get_instance_for_length (buildLengths [4, 8] 16) 20 =
      Except.error "IndexError" := by
  apply (get_instance_for_length_spec [4, 8] 16 20).2.2.2
  decide

/-- Claim C5: quantize is idempotent in exact arithmetic: for a positive
quant_scale and any t in [-max_value, max_value], applying quantize twice
gives the same result as applying it once. -/
theorem quantize_idempotent (t quant_scale max_value : ℚ)
    (hs : 0 < quant_scale) (hlo : -max_value ≤ t) (hhi : t ≤ max_value) :
    quantize (quantize t quant_scale max_value) quant_scale max_value =
      quantize t quant_scale max_value := by
  have hclip : min max_value (max t (-max_value)) = t := by
    rw [max_eq_left hlo, min_eq_right hhi]
  set n : ℤ := ⌊quant_scale * (t + max_value) + 1/2⌋ with hn
  have hq : quantize t quant_scale max_value =
      (n : ℚ) / quant_scale - max_value := by
    simp only [quantize]
    rw [hclip, ← hn]
  have hn0 : (0 : ℤ) ≤ n := by
    rw [hn]
    apply Int.floor_nonneg.2
    have : 0 ≤ quant_scale * (t + max_value) := mul_nonneg hs.le (by linarith)
    linarith
  have hne : quant_scale ≠ 0 := ne_of_gt hs
  have hulo : -max_value ≤ (n : ℚ) / quant_scale - max_value := by
    have : 0 ≤ (n : ℚ) / quant_scale :=
      div_nonneg (by exact_mod_cast hn0) hs.le
    linarith
  rw [hq]
  by_cases hcase : (n : ℚ) / quant_scale - max_value ≤ max_value
  · simp only [quantize]
    rw [max_eq_left hulo, min_eq_right hcase]
    have h1 : quant_scale * ((n : ℚ) / quant_scale - max_value + max_value)
        + 1/2 = (n : ℚ) + 1/2 := by
      field_simp
      ring
    rw [h1]
    have h2 : ⌊(n : ℚ) + 1/2⌋ = n := by
      rw [Int.floor_int_add]
      norm_num
    rw [h2]
  · push_neg at hcase
    simp only [quantize]
    rw [max_eq_left hulo, min_eq_left (le_of_lt hcase)]
    have hlt : quant_scale * (max_value + max_value) < (n : ℚ) := by
      have h3 : max_value + max_value < (n : ℚ) / quant_scale := by linarith
      calc quant_scale * (max_value + max_value)
          < quant_scale * ((n : ℚ) / quant_scale) :=
            mul_lt_mul_of_pos_left h3 hs
        _ = n := by field_simp
    have hMn : ⌊quant_scale * (max_value + max_value) + 1/2⌋ = n := by
      apply le_antisymm
      · have hup : quant_scale * (max_value + max_value) + 1/2
            < ((n + 1 : ℤ) : ℚ) := by
          push_cast
          linarith
        exact Int.lt_add_one_iff.1 (Int.floor_lt.2 hup)
      · rw [hn]
        apply Int.floor_le_floor
        have : quant_scale * (t + max_value)
            ≤ quant_scale * (max_value + max_value) :=
          mul_le_mul_of_nonneg_left (by linarith) hs.le
        linarith
    rw [hMn]

theorem quantize_idempotent_witness :
    quantize (quantize (1/3) 512 8) 512 8 = quantize (1/3) 512 8 :=
  quantize_idempotent (1/3) 512 8 (by norm_num) (by norm_num) (by norm_num)

lemma foldl_add_eq {m : ℕ} (v : Fin m → ℚ) (vs : List (Fin m → ℚ)) :
    vs.foldl (· + ·) v = v + vs.sum := by
  induction vs generalizing v with
  | nil => simp
  | cons w ws ih => simp [List.sum_cons, ih, add_assoc]

lemma add_n_apply {m : ℕ} (vs : List (Fin m → ℚ)) (j : Fin m) :
    add_n vs j = (vs.map (fun v => v j)).sum := by
  cases vs with
  | nil => simp [add_n]
  | cons v ws =>
    simp only [add_n, foldl_add_eq, List.map_cons, List.sum_cons]
    simp [Pi.list_sum_apply]

lemma sum_const_list (l : List ℚ) (c : ℚ) (h : ∀ x ∈ l, x = c) :
    l.sum = l.length * c := by
  induction l with
  | nil => simp
  | cons a t ih =>
    have ha : a = c := h a (by simp)
    have ht : t.sum = t.length * c := ih fun x hx => h x (by simp [hx])
    simp [ha, ht]
    ring

lemma list_sum_zero_iff (l : List ℚ) (h : ∀ x ∈ l, 0 ≤ x) :
    l.sum = 0 ↔ ∀ x ∈ l, x = 0 := by
  constructor
  · intro h0 x hx
    exact List.all_zero_of_le_zero_le_of_sum_eq_zero h h0 hx
  · exact List.sum_eq_zero

lemma list_sum_pos_of_mem (l : List ℚ) (h : ∀ x ∈ l, 0 ≤ x) (x : ℚ)
    (hx : x ∈ l) (hpos : 0 < x) : 0 < l.sum :=
  lt_of_lt_of_le hpos (List.single_le_sum h x hx)

lemma relaxed_average_penalty_eq {m : ℕ} (vs : List (Fin m → ℚ)) :
    (relaxed_average vs).2 =
      ∑ j, (vs.map (fun v =>
        (v j - (relaxed_average vs).1 j) * (v j - (relaxed_average vs).1 j))).sum := by
  simp only [relaxed_average]
  refine Finset.sum_congr rfl fun j _ => ?_
  rw [add_n_apply]
  simp only [List.map_map]
  congr 1

lemma relaxed_average_penalty_nonneg {m : ℕ} (vs : List (Fin m → ℚ)) :
    0 ≤ (relaxed_average vs).2 := by
  rw [relaxed_average_penalty_eq]
  apply Finset.sum_nonneg
  intro j _
  apply List.sum_nonneg
  intro x hx
  rw [List.mem_map] at hx
  obtain ⟨v, _, rfl⟩ := hx
  exact mul_self_nonneg _

lemma relaxed_average_avg_of_all_eq {m : ℕ} (vs : List (Fin m → ℚ))
    (v0 : Fin m → ℚ) (hne : vs ≠ []) (hall : ∀ v ∈ vs, v = v0) :
    (relaxed_average vs).1 = v0 := by
  funext j
  simp only [relaxed_average, add_n_apply]
  rw [sum_const_list (vs.map (fun v => v j)) (v0 j)
    (by intro x hx; rw [List.mem_map] at hx; obtain ⟨v, hv, rfl⟩ := hx;
        rw [hall v hv])]
  have hlen : (vs.length : ℚ) ≠ 0 :=
    Nat.cast_ne_zero.2 (Nat.pos_iff_ne_zero.mp (List.length_pos.2 hne))
  rw [List.length_map]
  field_simp

lemma relaxed_average_penalty_zero_iff {m : ℕ} (vs : List (Fin m → ℚ))
    (hne : vs ≠ []) :
    (relaxed_average vs).2 = 0 ↔ ∀ v ∈ vs, ∀ w ∈ vs, v = w := by
  constructor
  · intro h0 v hv w hw
    rw [relaxed_average_penalty_eq] at h0
    have hterm : ∀ u ∈ vs, ∀ j, u j = (relaxed_average vs).1 j := by
      intro u hu j
      have hj := (Finset.sum_eq_zero_iff_of_nonneg (fun j _ => by
        apply List.sum_nonneg
        intro x hx
        rw [List.mem_map] at hx
        obtain ⟨v', _, rfl⟩ := hx
        exact mul_self_nonneg _)).1 h0 j (Finset.mem_univ j)
      have := (list_sum_zero_iff _ (by
        intro x hx
        rw [List.mem_map] at hx
        obtain ⟨v', _, rfl⟩ := hx
        exact mul_self_nonneg _)).1 hj
        ((u j - (relaxed_average vs).1 j) * (u j - (relaxed_average vs).1 j))
        (List.mem_map.2 ⟨u, hu, rfl⟩)
      have := mul_self_eq_zero.1 this
      linarith
    funext j
    rw [hterm v hv j, hterm w hw j]
  · intro hall
    obtain ⟨v0, vs', rfl⟩ := List.exists_cons_of_ne_nil hne
    have hall0 : ∀ v ∈ v0 :: vs', v = v0 :=
      fun v hv => hall v hv v0 (List.mem_cons_self _ _)
    rw [relaxed_average_penalty_eq]
    apply Finset.sum_eq_zero
    intro j _
    apply List.sum_eq_zero
    intro x hx
    rw [List.mem_map] at hx
    obtain ⟨v, hv, rfl⟩ := hx
    rw [relaxed_average_avg_of_all_eq _ v0 hne hall0, hall0 v hv]
    ring

/-- Claim C4: the relaxation penalty — the sum over all RX-slot duplicate
groups of the summed squared deviations of each duplicate from its group's
elementwise mean — is exactly 0 when all duplicates in every group are
numerically identical, and strictly positive as soon as any duplicate
differs from another duplicate of its group. -/
theorem relaxed_distance_penalty_spec
    (groups : List ((m : ℕ) × List (Fin m → ℚ)))
    (hne : ∀ g ∈ groups, g.2 ≠ []) :
    ((∀ g ∈ groups, ∀ v ∈ g.2, ∀ w ∈ g.2, v = w) →
      relaxed_distance groups = 0) ∧
    (∀ g ∈ groups, ∀ v ∈ g.2, ∀ w ∈ g.2, v ≠ w →
      0 < relaxed_distance groups) := by
  constructor
  · intro hall
    unfold relaxed_distance
    apply List.sum_eq_zero
    intro x hx
    rw [List.mem_map] at hx
    obtain ⟨g, hg, rfl⟩ := hx
    exact (relaxed_average_penalty_zero_iff g.2 (hne g hg)).2 (hall g hg)
  · intro g hg v hv w hw hvw
    unfold relaxed_distance
    apply list_sum_pos_of_mem _ ?_ ((relaxed_average g.2).2)
      (List.mem_map.2 ⟨g, hg, rfl⟩) ?_
    · intro x hx
      rw [List.mem_map] at hx
      obtain ⟨g', _, rfl⟩ := hx
      exact relaxed_average_penalty_nonneg g'.2
    · rcases lt_or_eq_of_le (relaxed_average_penalty_nonneg g.2) with h | h
      · exact h
      · exact absurd
          ((relaxed_average_penalty_zero_iff g.2 (hne g hg)).1 h.symm v hv w hw)
          hvw

theorem relaxed_distance_penalty_spec_witness :
    relaxed_distance [⟨1, [fun _ => (2 : ℚ), fun _ => (2 : ℚ)]⟩] = 0 := by
  apply (relaxed_distance_penalty_spec
    [⟨1, [fun _ => (2 : ℚ), fun _ => (2 : ℚ)]⟩] ?_).1 ?_
  · intro g hg
    simp only [List.mem_singleton] at hg
    subst hg
    simp
  · intro g hg v hv w hw
    simp only [List.mem_singleton] at hg
    subst hg
    simp only [List.mem_cons, List.mem_singleton, List.not_mem_nil, or_false] at hv hw
    rcases hv with rfl | rfl <;> rcases hw with rfl | rfl <;> rfl

lemma dropout_one (noise : ℚ) (h0 : 0 ≤ noise) (h1 : noise < 1) (x : ℚ) :
    dropout 1 noise x = x := by
  unfold dropout
  have hf : ⌊(1 : ℚ) + noise⌋ = 1 := by
    rw [show (1 : ℚ) = ((1 : ℤ) : ℚ) by norm_num, Int.floor_int_add]
    rw [Int.floor_eq_zero_iff.2 (Set.mem_Ico.2 ⟨h0, h1⟩)]
    exact Int.add_zero 1
  rw [hf]
  push_cast
  rw [div_one, mul_one]

lemma construct_all_layers_noise_free (G : ℕ → ℚ → ℚ) (dropout_flag : ℚ)
    (length : ℕ) (mask first : ℚ) (noise1 noise2 : ℕ → ℚ)
    (h1 : ∀ i, 0 ≤ noise1 i ∧ noise1 i < 1)
    (h2 : ∀ i, 0 ≤ noise2 i ∧ noise2 i < 1) :
    construct_all_layers G 0 dropout_flag length mask noise1 first =
      construct_all_layers G 0 dropout_flag length mask noise2 first := by
  simp only [construct_all_layers]
  have hkp : (1 : ℚ) - 0 * (dropout_flag * 8 / (length : ℚ)) = 1 := by ring
  rw [hkp]
  refine congrArg Prod.snd (List.foldl_ext _ _ _ fun st b _ => ?_)
  simp only [dropout_one _ (h1 b).1 (h1 b).2, dropout_one _ (h2 b).1 (h2 b).2]

/-- Claim C10: when step runs with do_backward false it binds the
do_training placeholder to 0.0; with do_training 0 the dropout keep
probability 1 - do_training * (dropout * 8 / length) is exactly 1, making
dropout the identity, so the recurrent forward pass is independent of the
dropout noise: two runs over the same inputs and parameters (same G, mask
and first grid) produce identical per-step layers, hence identical loss,
outputs, layer outputs and attention weights, which are functions of those
layers. -/
theorem forward_deterministic_without_backward
    (instances : List ℕ) (inp target : List (List ℤ)) (taskid : List ℤ)
    (fd : StepFeed) (G : ℕ → ℚ → ℚ) (dropout_flag mask first : ℚ)
    (length : ℕ) (noise1 noise2 : ℕ → ℚ)
    (hstep : step instances inp target taskid false = Except.ok fd)
    (h1 : ∀ i, 0 ≤ noise1 i ∧ noise1 i < 1)
    (h2 : ∀ i, 0 ≤ noise2 i ∧ noise2 i < 1) :
    fd.do_training = 0 ∧
    1 - fd.do_training * (dropout_flag * 8 / (length : ℚ)) = 1 ∧
    construct_all_layers G fd.do_training dropout_flag length mask noise1 first =
      construct_all_layers G fd.do_training dropout_flag length mask noise2 first := by
  have hdt : fd.do_training = 0 := by
    simp only [step, Bool.false_eq_true, if_false] at hstep
    by_cases hlen : inp.length = target.length
    · rw [if_pos hlen] at hstep
      cases hgi : get_instance_for_length instances target.length with
      | ok l =>
        rw [hgi] at hstep
        simp only [Except.ok.injEq] at hstep
        rw [← hstep]
      | error e =>
        rw [hgi] at hstep
        simp at hstep
    · rw [if_neg hlen] at hstep
      simp at hstep
  refine ⟨hdt, ?_, ?_⟩
  · rw [hdt]; ring
  · rw [hdt]
    exact construct_all_layers_noise_free G dropout_flag length mask first
      noise1 noise2 h1 h2

theorem forward_deterministic_without_backward_witness :
    (0 : ℚ) = 0 ∧
    1 - (0 : ℚ) * ((1/2 : ℚ) * 8 / ((1 : ℕ) : ℚ)) = 1 ∧
    construct_all_layers (fun _ x => x) 0 (1/2) 1 1 (fun _ => 0) 1 =
      construct_all_layers (fun _ x => x) 0 (1/2) 1 1 (fun _ => 1/2) 1 :=
  forward_deterministic_without_backward [4] [[1]] [[1]] [0]
    ⟨0, [0], [[1]], [[1]], 4⟩ (fun _ x => x) (1/2) 1 1 1
    (fun _ => 0) (fun _ => 1/2) rfl
    (fun _ => ⟨le_refl 0, by norm_num⟩)
    (fun _ => ⟨by norm_num, by norm_num⟩)

lemma construct_mask_fst_length (input target : List ℤ)
    (hlen : input.length = target.length) :
    (construct_mask input target).1.length = input.length := by
  simp [construct_mask, hlen]

lemma construct_mask_fst_mem_01 (input target : List ℤ) :
    ∀ x ∈ (construct_mask input target).1, x = 0 ∨ x = 1 := by
  intro x hx
  simp only [construct_mask, List.mem_map] at hx
  obtain ⟨b, _, rfl⟩ := hx
  cases b <;> simp

lemma construct_mask_fst_getD_01 (input target : List ℤ) (k : ℕ) :
    (construct_mask input target).1.getD k 0 = 0 ∨
      (construct_mask input target).1.getD k 0 = 1 := by
  by_cases hk : k < (construct_mask input target).1.length
  · rw [List.getD_eq_getElem?_getD, List.getElem?_eq_getElem hk,
      Option.getD_some]
    exact construct_mask_fst_mem_01 input target _ (List.getElem_mem hk)
  · rw [List.getD_eq_getElem?_getD, List.getElem?_eq_none (by omega)]
    left
    rfl

lemma construct_mask_fst_getD (input target : List ℤ) (i : ℕ)
    (hi : i < input.length) (hlen : input.length = target.length) :
    (construct_mask input target).1.getD i 0 =
      if 0 < input.getD i 0 ∨ 0 < target.getD i 0 then 1 else 0 := by
  have hti : i < target.length := hlen ▸ hi
  have h1 : input[i]? = some input[i] := List.getElem?_eq_getElem hi
  have h2 : target[i]? = some target[i] := List.getElem?_eq_getElem hti
  simp only [construct_mask, List.getD_eq_getElem?_getD, List.getElem?_map,
    List.getElem?_zipWith, h1, h2]
  simp [Bool.or_eq_true, decide_eq_true_eq]

lemma scales_of_mask_getD (m : List ℚ) (j : ℕ) (hj : j < m.length) :
    (List.zipWith (fun a b => a * (1 - b)) ((m ++ [0]).take m.length)
      ((m ++ [0]).drop 1)).getD j 0 =
      m.getD j 0 * (1 - m.getD (j + 1) 0) := by
  have hmj : m[j]? = some m[j] := List.getElem?_eq_getElem hj
  rw [List.getD_eq_getElem?_getD (List.zipWith _ _ _) j 0, List.getElem?_zipWith,
    List.getElem?_take, if_pos hj, List.getElem?_drop,
    List.getElem?_append_left hj, hmj,
    show 1 + j = j + 1 from Nat.add_comm 1 j,
    List.getD_eq_getElem?_getD m j 0, hmj,
    List.getD_eq_getElem?_getD m (j + 1) 0]
  by_cases hj1 : j + 1 < m.length
  · rw [List.getElem?_append_left hj1, List.getElem?_eq_getElem hj1]
    rfl
  · rw [List.getElem?_append_right (by omega : m.length ≤ j + 1),
      List.getElem?_eq_none (by omega : m.length ≤ j + 1)]
    have hz : [(0 : ℚ)][j + 1 - m.length]? = some 0 := by
      have h0 : j + 1 - m.length = 0 := by omega
      rw [h0]
      rfl
    rw [hz]
    rfl

lemma construct_mask_snd_getD (input target : List ℤ) (j : ℕ)
    (hj : j < (construct_mask input target).1.length) :
    (construct_mask input target).2.getD j 0 =
      (construct_mask input target).1.getD j 0 *
        (1 - (construct_mask input target).1.getD (j + 1) 0) := by
  have := scales_of_mask_getD (construct_mask input target).1 j hj
  simpa [construct_mask] using this

/-- Claim C3, counterexample: an all-padding example (input and target both
all zeros) has mask [0, 0] — whose nonzero positions, being none at all, are
vacuously contiguous from the start — yet its scale row is [0, 0]: there is
no position at which scale is 1 (the row has length 2, and both entries
differ from 1), so the scale tensor is not a one-hot selection of a last
nonzero position for this example. -/
theorem construct_mask_all_padding_counterexample :
    construct_mask [0, 0] [0, 0] = ([0, 0], [0, 0]) ∧
    (construct_mask [0, 0] [0, 0]).2.getD 0 0 ≠ 1 ∧
    (construct_mask [0, 0] [0, 0]).2.getD 1 0 ≠ 1 := by
  refine ⟨?_, ?_, ?_⟩ <;> norm_num [construct_mask]

/-- Claim C3 (amended): for every batch example (of equal input and target
length), the mask built by construct_mask is 1 exactly at positions where
input > 0 or target > 0 and 0 elsewhere — unconditionally; for every example
whose nonzero (mask = 1) positions are contiguous from the start of the
sequence and which has at least one nonzero position, the derived scale row
is 1 at exactly one position — the last nonzero position — and 0 everywhere
else; and every example with no nonzero position (all padding) instead has
an identically zero scale row. -/
theorem construct_mask_spec (input target : List ℤ)
    (hlen : input.length = target.length) :
    (∀ i, i < input.length →
      (construct_mask input target).1.getD i 0 =
        if 0 < input.getD i 0 ∨ 0 < target.getD i 0 then 1 else 0) ∧
    ((∀ i j : ℕ, i ≤ j →
        (construct_mask input target).1.getD j 0 = 1 →
        (construct_mask input target).1.getD i 0 = 1) →
      (∃ i, i < input.length ∧
        (construct_mask input target).1.getD i 0 = 1) →
      ∃ p, p < input.length ∧
        (construct_mask input target).1.getD p 0 = 1 ∧
        (∀ j, p < j → (construct_mask input target).1.getD j 0 ≠ 1) ∧
        (∀ j, j < input.length →
          (construct_mask input target).2.getD j 0 = if j = p then 1 else 0)) ∧
    ((∀ i, i < input.length →
        (construct_mask input target).1.getD i 0 ≠ 1) →
      ∀ j, j < input.length →
        (construct_mask input target).2.getD j 0 = 0) := by
  have hMlen : (construct_mask input target).1.length = input.length :=
    construct_mask_fst_length input target hlen
  refine ⟨fun i hi => construct_mask_fst_getD input target i hi hlen, ?_, ?_⟩
  case refine_2 =>
    intro hzero j hjL
    have hjM : j < (construct_mask input target).1.length := by omega
    rw [construct_mask_snd_getD input target j hjM]
    rcases construct_mask_fst_getD_01 input target j with h0 | h1
    · rw [h0]; ring
    · exact absurd h1 (hzero j hjL)
  intro hcontig hnz
  obtain ⟨i0, hi0L, hi0⟩ := hnz
  have hL1 : 1 ≤ input.length := by omega
  set p := Nat.findGreatest
    (fun i => (construct_mask input target).1.getD i 0 = 1)
    (input.length - 1) with hp
  have hpP : (construct_mask input target).1.getD p 0 = 1 := by
    rw [hp]
    exact Nat.findGreatest_spec
      (P := fun i => (construct_mask input target).1.getD i 0 = 1)
      (m := i0) (n := input.length - 1) (by omega) hi0
  have hple : p ≤ input.length - 1 := by
    rw [hp]
    exact Nat.findGreatest_le _
  have hpL : p < input.length := by omega
  have hmax : ∀ j, p < j → (construct_mask input target).1.getD j 0 ≠ 1 := by
    intro j hj
    by_cases hjL : j ≤ input.length - 1
    · rw [hp] at hj
      exact Nat.findGreatest_is_greatest hj hjL
    · intro hcon
      rw [List.getD_eq_getElem?_getD, List.getElem?_eq_none (by omega)] at hcon
      simp at hcon
  refine ⟨p, hpL, hpP, hmax, ?_⟩
  intro j hjL
  have hjM : j < (construct_mask input target).1.length := by omega
  rw [construct_mask_snd_getD input target j hjM]
  by_cases hcase : j = p
  · rw [if_pos hcase, hcase, hpP]
    rcases construct_mask_fst_getD_01 input target (p + 1) with h0 | h1
    · rw [h0]; ring
    · exact absurd h1 (hmax (p + 1) (by omega))
  · rw [if_neg hcase]
    rcases construct_mask_fst_getD_01 input target j with h0 | h1
    · rw [h0]; ring
    · have hjp : j < p := by
        rcases Nat.lt_or_ge p j with h | h
        · exact absurd h1 (hmax j h)
        · omega
      have h2 : (construct_mask input target).1.getD (j + 1) 0 = 1 :=
        hcontig (j + 1) p (by omega) hpP
      rw [h1, h2]
      ring

theorem construct_mask_spec_witness :
    (construct_mask [1, 0] [0, 0]).2.getD 0 0 = 1 ∧
    (construct_mask [1, 0] [0, 0]).2.getD 1 0 = 0 := by
  have hval : ∀ k, (construct_mask [1, 0] [0, 0]).1.getD k 0 =
      if k = 0 then 1 else 0 := by
    intro k
    have hmask : (construct_mask [1, 0] [0, 0]).1 = [1, 0] := by
      norm_num [construct_mask]
    rw [hmask]
    match k with
    | 0 => rfl
    | 1 => rfl
    | (n + 2) => rfl
  have h := construct_mask_spec [1, 0] [0, 0] rfl
  obtain ⟨p, hpL, hpP, hmax, hscales⟩ := h.2.1
    (by
      intro i j hij hj
      rw [hval j] at hj
      rw [hval i]
      split_ifs at hj with hj0
      · rw [if_pos (by omega)]
      · exact absurd hj (by norm_num))
    ⟨0, by norm_num, by rw [hval 0]; norm_num⟩
  have hp0 : p = 0 := by
    rcases Nat.eq_zero_or_pos p with h0 | h0
    · exact h0
    · rw [hval p, if_neg (by omega)] at hpP
      exact absurd hpP (by norm_num)
  constructor
  · rw [hscales 0 (by norm_num), hp0]
    norm_num
  · rw [hscales 1 (by norm_num), hp0]
    norm_num

theorem conv_gru_matches_spec_witness :
    conv_gru (fun k x => k * x) (fun x => x) (fun x => x) ⟨0, 0, 0⟩
        (fun _ => 0) 1 1 1 1 1 [] =
      conv_gru_spec (fun k x => k * x) (fun x => x) (fun x => x) ⟨0, 0, 0⟩
        (fun _ => 0) 1 1 1 1 1 [] :=
  (conv_gru_matches_spec (fun k x => k * x) (fun x => x) (fun x => x)
    ⟨0, 0, 0⟩ (fun _ => 0) 1 1 1 1 1 []).1

theorem tf_cut_function_assert_spec_witness :
    tf_cut_function 0 (some (0, 1)) (some (2, -1)) =
      Except.error "AssertionError" :=
  (tf_cut_function_assert_spec 0 0 1 2 (-1)).1.2
    (fun h => absurd h.1 (by norm_num))

end NeuralGPU
